import Mathlib

/-!
Shallow embedding of `snakemake/rules.py` (classes `Rule` and `Ruleorder`).

The file `snakemake/io.py` is not part of the sources; the pattern type,
its matcher and renderer, and the helpers `expand` (zip mode),
`apply_wildcards` and `Namedlist.insert_items` are therefore modelled from
the specification (each such definition says so in its doc comment).
Everything else is translated from `snakemake/rules.py`.

Conventions:
* Python dicts that map wildcard names to strings become association lists
  (`Binding`), keeping insertion order the way `dict` does.
* Python sets of IOFiles become lists used only through membership.
* Machine-level details (regex engine) are modelled per the spec's pattern
  grammar: `{name}` captures one or more characters other than `/`,
  matching is anchored and greedy, repeated names must capture equal text.
* Mutation is made explicit: `dynamic_branch` returns the result together
  with the post-call state of the receiver rule.
-/

/-- A wildcard binding: insertion-ordered map from names to captured strings,
mirroring the Python `dict` returned by `re.Match.groupdict()`. -/
abbrev Binding := List (String × String)

/-- Modelled from the spec: one element of a parsed path template from
`snakemake.io` — either literal text or a `{name}` placeholder
(default body `[^/]+`). Custom `{name,regex}` bodies are not needed by
any claim and are not modelled. -/
inductive Seg where
  | lit (s : String)
  | wild (name : String)
deriving DecidableEq, Repr

/-- Modelled from the spec: a parsed path template (`IOFile` in
`snakemake.io`): the ordered list of its literal and placeholder parts. -/
abbrev Pattern := List Seg

/-- A concrete file, as produced by `IOFile(e)` on an already-expanded
string: a template that is all literal text. -/
def Pattern.ofLit (s : String) : Pattern := [Seg.lit s]

/-- `true` iff the template contains at least one placeholder. -/
def hasWild (p : Pattern) : Bool :=
  p.any fun s => match s with | .wild _ => true | .lit _ => false

/-- The placeholder names of a template, in order of occurrence,
with repetitions. -/
def wildNamesList (p : Pattern) : List String :=
  p.filterMap fun s => match s with | .wild n => some n | .lit _ => none

/-- All ways to split `cs` as `v ++ rest` with `v` nonempty, shortest `v`
first. -/
def headSplits : List Char → List (List Char × List Char)
  | [] => []
  | c :: cs => ([c], cs) :: (headSplits cs).map (fun q => (c :: q.1, q.2))

/-- The same splits, longest captured part first — the order in which a
greedy regex engine tries the capture `[^/]+`. -/
def splitsDesc (cs : List Char) : List (List Char × List Char) :=
  (headSplits cs).reverse

/-- Modelled from the spec: anchored matching of a template against a path
(`IOFile.match` backed by the compiled regex). Placeholders capture one or
more characters other than `/`, greedily; a repeated name must capture the
same text (back-reference). Returns the accumulated binding in order of
first occurrence, like `groupdict()`. -/
def matchSegs : List Seg → List Char → Binding → Option Binding
  | [], cs, b => if cs = [] then some b else none
  | Seg.lit s :: rest, cs, b =>
      if s.data.isPrefixOf cs then matchSegs rest (cs.drop s.data.length) b
      else none
  | Seg.wild n :: rest, cs, b =>
      (splitsDesc cs).findSome? fun q =>
        if q.1.contains '/' then none
        else
          match b.lookup n with
          | some w => if w.data = q.1 then matchSegs rest q.2 b else none
          | none => matchSegs rest q.2 (b ++ [(n, String.mk q.1)])

/-- `IOFile.match` on a whole path. -/
def pmatch (p : Pattern) (s : String) : Option Binding :=
  matchSegs p s.data []

/-- Rendering a template under a total value assignment (used only where
every placeholder is known to be bound; unbound names render as ""). -/
def renderP (p : Pattern) (b : Binding) : String :=
  p.foldl (fun acc s =>
    acc ++ match s with | .lit t => t | .wild n => ((b.lookup n).getD "")) ""

/-- Position-wise value assignment `name ↦ lists[name][j]` used by the zip
expansion. -/
def valueAt (w : List (String × List String)) (j : Nat) : Binding :=
  w.map (fun q => (q.1, q.2.getD j ""))

/-- Number of tuples produced by `zip` over the value lists: 0 for no lists,
else the minimum list length. -/
def zipCount : List (String × List String) → Nat
  | [] => 0
  | [q] => q.2.length
  | q :: q' :: rest => min q.2.length (zipCount (q' :: rest))

/-- The `k` position-wise renderings of a template, in positional order. -/
def zipExpansions (f : Pattern) (w : List (String × List String)) (k : Nat) :
    List String :=
  (List.range k).map (fun j => renderP f (valueAt w j))

/-- Modelled from the spec: `snakemake.io.expand(f, zip, **wildcards)` —
the position-wise (`zip`) expansions of a template over lists of wildcard
values. A placeholder name absent from the lists raises `KeyError`
(`none` here); with zero tuples no formatting happens and the result is
empty. -/
def expand_zip (f : Pattern) (w : List (String × List String)) :
    Option (List String) :=
  let k := zipCount w
  if k ≠ 0 ∧ ¬ (wildNamesList f).all (fun n => (w.lookup n).isSome) then none
  else some (zipExpansions f w k)

/-- Errors raised by the modelled rendering (`WildcardError` and the
dynamic-output guard of `snakemake.io.apply_wildcards`). -/
inductive WErr where
  | unresolved (name : String)
  | dynamicNotExpanded
deriving DecidableEq, Repr

/-- The synthetic marker substituted for a still-unknown dynamic-input
wildcard (spec: "a synthetic marker"). -/
def dynamicFill : String := "__snakemake_dynamic__"

/-- Modelled from the spec: rendering with optional filling of missing
names; an unbound name not filled raises `WildcardError`. -/
def renderSegs : List Seg → Binding → Bool → Except WErr String
  | [], _, _ => .ok ""
  | Seg.lit t :: rest, w, fm => (renderSegs rest w fm).map (fun s => t ++ s)
  | Seg.wild n :: rest, w, fm =>
      match w.lookup n with
      | some v => (renderSegs rest w fm).map (fun s => v ++ s)
      | none =>
          if fm then (renderSegs rest w fm).map (fun s => dynamicFill ++ s)
          else .error (.unresolved n)

/-- Modelled from the spec: `IOFile.apply_wildcards`. If the file itself is
among the `fail_dynamic` set the rendering fails with
`DynamicNotExpanded`; otherwise placeholders are substituted, missing ones
filled with the marker when `fillMissing` is set. -/
def applyWildcards (p : Pattern) (w : Binding) (fillMissing : Bool)
    (failDynamic : List Pattern) : Except WErr String :=
  if p ∈ failDynamic then .error .dynamicNotExpanded
  else renderSegs p w fillMissing

/-- Value returned by a user input/param callable: a string (kept as a
template, as `IOFile` re-reads it) or something that is not a string. -/
inductive FuncVal where
  | strv (p : Pattern)
  | notStr
deriving DecidableEq, Repr

/-- Behaviour of a user callable when invoked: it raises, or returns a
value; `not_iterable` single results are the one-element list. -/
inductive FuncRet where
  | raises (msg : String)
  | ret (vals : List FuncVal)

/-- An input or params item of a rule: a file template or a user callable
(`callable(item)` in the source). -/
inductive Item where
  | file (p : Pattern)
  | func (g : Binding → FuncRet)

/-- Exceptions of `Rule.expand_wildcards` and `dynamic_branch`,
as raised in `rules.py`:
* `unresolvedWildcards` — `RuleException("Could not resolve wildcards…",
  lineno=…, snakefile=…)` carrying the rule's name in the message;
* `wildcardsInInput` — the `RuleException` wrapping a caught
  `WildcardError`;
* `badInputFunction` — `RuleException("Input function did not return str
  or list of str.", rule=self)`;
* `userRaise` — an exception raised by a user callable, which `rules.py`
  does not catch;
* `dynamicNotExpanded` — the dynamic-output guard error, not a
  `WildcardError`, hence not wrapped. -/
inductive RuleErr where
  | unresolvedWildcards (rulename : String) (lineno : Option Nat)
      (snakefile : Option String)
  | wildcardsInInput (rulename : String) (lineno : Option Nat)
      (snakefile : Option String) (sub : String)
  | badInputFunction (rulename : String)
  | userRaise (msg : String)
  | dynamicNotExpanded (rulename : String)
deriving DecidableEq, Repr

/-- The state of a `Rule` object (`Rule.__init__`, two-argument form, plus
the fields the claims touch). Python sets are lists used through
membership; `_input`/`_params` may hold callables. -/
structure Rule where
  name : String
  input : List Item
  output : List Pattern
  params : List Item
  log : Option Pattern
  dynamic_output : List Pattern
  dynamic_input : List Pattern
  temp_output : List Pattern
  protected_output : List Pattern
  wildcard_names : List String
  priority : Int
  lineno : Option Nat
  snakefile : Option String

/-- `Rule.__init__(name, workflow)`: the freshly constructed rule. -/
def Rule.new (name : String) (lineno : Option Nat) (snakefile : Option String) :
    Rule where
  name := name
  input := []
  output := []
  params := []
  log := none
  dynamic_output := []
  dynamic_input := []
  temp_output := []
  protected_output := []
  wildcard_names := []
  priority := 1
  lineno := lineno
  snakefile := snakefile

/-- `Rule.__eq__`: equality is by name only. -/
def Rule.eq (a b : Rule) : Bool := a.name == b.name

/-- `Rule.__hash__`: `self.name.__hash__()` — the (interpreter-supplied)
string hash applied to the name, so the hash is a function of the name
alone. `strhash` stands for CPython's opaque string hash. -/
def Rule.hashBy (strhash : String → Int) (r : Rule) : Int := strhash r.name

/-- `Rule.get_wildcard_len`: the sum of the lengths of the captured
values. -/
def get_wildcard_len (b : Binding) : Nat :=
  (b.map fun q => q.2.length).sum

/-- Python truthiness of the running `bestmatch` (`None` and the empty
dict are falsy). -/
def pyFalsy : Option Binding → Bool
  | none => true
  | some [] => true
  | some (_ :: _) => false

/-- The loop of `Rule.get_wildcards`: iterate over the outputs keeping the
best (smallest `get_wildcard_len`) match seen so far; the update guard is
`not bestmatch or bestmatchlen > l`. -/
def gwLoop (path : String) (bestmatch : Option Binding) (bestlen : Nat) :
    List Pattern → Option Binding
  | [] => bestmatch
  | o :: rest =>
      match pmatch o path with
      | some b =>
          let l := get_wildcard_len b
          if pyFalsy bestmatch || decide (bestlen > l) then
            gwLoop path (some b) l rest
          else gwLoop path bestmatch bestlen rest
      | none => gwLoop path bestmatch bestlen rest

/-- `Rule.get_wildcards`: `None` requested output yields the empty dict;
otherwise the best-scoring match among the outputs (or `None`). -/
def Rule.get_wildcards (r : Rule) (requested_output : Option String) :
    Option Binding :=
  match requested_output with
  | none => some []
  | some path => gwLoop path none 0 r.output

/-- `Rule.is_producer`: some output matches the requested path. -/
def Rule.is_producer (r : Rule) (requested_output : String) : Bool :=
  r.output.any fun o => (pmatch o requested_output).isSome

/-- `Ruleorder`: the list of recorded clauses. -/
structure Ruleorder where
  order : List (List String)
deriving DecidableEq, Repr

/-- `Ruleorder.add`: append one clause. -/
def Ruleorder.add (ro : Ruleorder) (rulenames : List String) : Ruleorder :=
  ⟨ro.order ++ [rulenames]⟩

/-- `list.index` with `ValueError` as `none`: index of the first
occurrence. -/
def firstIndex : List String → String → Option Nat
  | [], _ => none
  | x :: xs, a => if x = a then some 0 else (firstIndex xs a).map (· + 1)

/-- The clause scan of `Ruleorder.compare` over an already-reversed clause
list: the first clause containing both names decides with the sign of
`j - i`; a `ValueError` (either name absent) moves on. -/
def compareClauses : List (List String) → String → String → Int
  | [], _, _ => 0
  | c :: rest, a, b =>
      match firstIndex c a, firstIndex c b with
      | some i, some j =>
          if (j : Int) - i < 0 then -1 else if (j : Int) - i > 0 then 1 else 0
      | some _, none => compareClauses rest a b
      | none, _ => compareClauses rest a b

/-- `Ruleorder.compare`: clauses are tried latest-first. -/
def Ruleorder.compare (ro : Ruleorder) (rule1name rule2name : String) : Int :=
  compareClauses ro.order.reverse rule1name rule2name

/-! ## Rule construction: `set_output` -/

/-- A DSL-level output item: a template string together with the flags the
wrappers `temp`/`protected`/`dynamic` attached to it (`is_flagged` in the
source reads them). -/
structure OutItem where
  pat : Pattern
  temp : Bool
  protected_ : Bool
  dynamic : Bool
deriving DecidableEq, Repr

/-- Construction-time errors of `set_output` (both are `SyntaxError` in
the source; the spec names them `MixedDynamicOutput` and
`WildcardSetMismatch`). -/
inductive SynErr where
  | mixedDynamicOutput
  | wildcardSetMismatch (rulename : String)
deriving DecidableEq, Repr

/-- Equality of Python `set`s of wildcard names, on their list model. -/
def eqSet (a b : List String) : Bool :=
  a.all (fun x => b.contains x) && b.all (fun x => a.contains x)

/-- `Rule._set_inoutput_item` for one output string: wrap as an `IOFile`,
record its flags in the corresponding sets, append it to the output list. -/
def addOutputItem (r : Rule) (it : OutItem) : Rule :=
  { r with
    output := r.output ++ [it.pat]
    temp_output := if it.temp then r.temp_output ++ [it.pat] else r.temp_output
    protected_output :=
      if it.protected_ then r.protected_output ++ [it.pat]
      else r.protected_output
    dynamic_output :=
      if it.dynamic then r.dynamic_output ++ [it.pat] else r.dynamic_output }

/-- The validation loop at the end of `set_output`: walk all outputs; a
non-dynamic output while `dynamic_output` is nonempty raises the
mixed-dynamic `SyntaxError`; otherwise compare the item's wildcard-name
set with `self.wildcard_names`, which is only consulted (and only locked)
while it is truthy, i.e. nonempty. Returns the final `wildcard_names`. -/
def checkOutputs (rulename : String) (dyn : List Pattern)
    (wn : List String) : List Pattern → Except SynErr (List String)
  | [] => .ok wn
  | o :: rest =>
      if dyn ≠ [] ∧ o ∉ dyn then .error .mixedDynamicOutput
      else
        let wc := wildNamesList o
        if wn ≠ [] then
          if ¬ eqSet wn wc then .error (.wildcardSetMismatch rulename)
          else checkOutputs rulename dyn wn rest
        else checkOutputs rulename dyn wc rest

/-- `Rule.set_output` on positional items: add each item, then run the
validation loop over all outputs. -/
def set_output (r : Rule) (items : List OutItem) : Except SynErr Rule :=
  let r' := items.foldl addOutputItem r
  (checkOutputs r'.name r'.dynamic_output r'.wildcard_names r'.output).map
    (fun wn => { r' with wildcard_names := wn })

/-! ## `Rule.expand_wildcards` -/

/-- The concretized tuple returned by `expand_wildcards` (the `ruleio`
provenance map is not consumed by any claim and is omitted). -/
structure ExpandResult where
  input : List Pattern
  output : List Pattern
  params : List String
  log : Option Pattern
deriving Repr

/-- The per-value check inside the callable branch of `_apply_wildcards`:
each returned element must be a string, else
`RuleException("Input function did not return str or list of str.")`. -/
def checkStrs (rulename : String) : List FuncVal → Except RuleErr (List Pattern)
  | [] => .ok []
  | .notStr :: _ => .error (.badInputFunction rulename)
  | .strv p :: rest => (checkStrs rulename rest).map (fun ps => p :: ps)

/-- Lift a rendering failure on inputs/params/outputs/log to the
exceptions of `expand_wildcards`: a `WildcardError` is caught and
re-raised as the "Wildcards in input or log file of rule … cannot be
determined" `RuleException`; the dynamic guard error is not caught. -/
def liftWErr (r : Rule) : WErr → RuleErr
  | .unresolved n => .wildcardsInInput r.name r.lineno r.snakefile n
  | .dynamicNotExpanded => .dynamicNotExpanded r.name

/-- `concretize_iofile` on a static input template: apply the binding with
`fill_missing = (f ∈ dynamic_input)` and `fail_dynamic = dynamic_output`.
Strings returned by input callables are wrapped as `IOFile`s verbatim
(the `not isinstance(f, _IOFile)` branch), with no substitution. -/
def concretizeInput (r : Rule) (w : Binding) (f : Pattern) :
    Except RuleErr Pattern :=
  match applyWildcards f w (decide (f ∈ r.dynamic_input)) r.dynamic_output with
  | .ok s => .ok (Pattern.ofLit s)
  | .error e => .error (liftWErr r e)

/-- The input half of `_apply_wildcards`: callables are invoked on the
binding; an exception they raise propagates (nothing in `rules.py`
catches it); their results are checked to be strings and kept verbatim;
static items are concretized. -/
def expandInputs (r : Rule) (w : Binding) : List Item → Except RuleErr (List Pattern)
  | [] => .ok []
  | .file f :: rest =>
      match concretizeInput r w f with
      | .error e => .error e
      | .ok p => (expandInputs r w rest).map (fun ps => p :: ps)
  | .func g :: rest =>
      match g w with
      | .raises msg => .error (.userRaise msg)
      | .ret vals =>
          match checkStrs r.name vals with
          | .error e => .error e
          | .ok ps => (expandInputs r w rest).map (fun qs => ps ++ qs)

/-- The params half of `_apply_wildcards`: the default `concretize` is
`snakemake.io.apply_wildcards` (plain substitution), applied both to
static string items and to the strings a callable returns. -/
def expandParams (r : Rule) (w : Binding) : List Item → Except RuleErr (List String)
  | [] => .ok []
  | .file f :: rest =>
      match applyWildcards f w false [] with
      | .error e => .error (liftWErr r e)
      | .ok s => (expandParams r w rest).map (fun ss => s :: ss)
  | .func g :: rest =>
      match g w with
      | .raises msg => .error (.userRaise msg)
      | .ret vals =>
          match checkStrs r.name vals with
          | .error e => .error e
          | .ok ps =>
              match renderAll r w ps with
              | .error e => .error e
              | .ok ss => (expandParams r w rest).map (fun ss' => ss ++ ss')
where
  /-- substitute into each string a callable returned -/
  renderAll (r : Rule) (w : Binding) : List Pattern → Except RuleErr (List String)
  | [] => .ok []
  | p :: ps =>
      match applyWildcards p w false [] with
      | .error e => .error (liftWErr r e)
      | .ok s => (renderAll r w ps).map (fun ss => s :: ss)

/-- `o.apply_wildcards(wildcards)` over the output list. -/
def expandOutputs (r : Rule) (w : Binding) : List Pattern → Except RuleErr (List Pattern)
  | [] => .ok []
  | o :: rest =>
      match applyWildcards o w false [] with
      | .error e => .error (liftWErr r e)
      | .ok s => (expandOutputs r w rest).map (fun ps => Pattern.ofLit s :: ps)

/-- `Rule.expand_wildcards`: first the missing-wildcard check
(`self.wildcard_names - set(wildcards.keys())`), raising the
"Could not resolve wildcards" `RuleException` before anything is
concretized; then inputs, params, outputs and log in that order. -/
def expand_wildcards (r : Rule) (w : Binding) : Except RuleErr ExpandResult :=
  let missing := r.wildcard_names.filter (fun n => (w.lookup n).isNone)
  if missing.isEmpty then
    match expandInputs r w r.input with
    | .error e => .error e
    | .ok inp =>
        match expandParams r w r.params with
        | .error e => .error e
        | .ok par =>
            match expandOutputs r w r.output with
            | .error e => .error e
            | .ok out =>
                match r.log with
                | none => .ok ⟨inp, out, par, none⟩
                | some lg =>
                    match applyWildcards lg w false [] with
                    | .error e => .error (liftWErr r e)
                    | .ok s => .ok ⟨inp, out, par, some (Pattern.ofLit s)⟩
  else .error (.unresolvedWildcards r.name r.lineno r.snakefile)

/-! ## `Rule.dynamic_branch`

The copy constructor `Rule(self)` copies *references*: the clone and the
receiver share the same input/output `Namedlist`s and the same
dynamic/temp/protected sets and `wildcard_names` set, so the in-place
updates below are visible through the receiver as well. The embedding
makes this explicit by returning the post-call state of the receiver next
to the result. -/

/-- `len(set(values)) == 1`: the value list has exactly one distinct
value. -/
def isConstList : List String → Bool
  | [] => false
  | v :: rest => rest.all (fun x => x == v)

/-- The non-dynamic sub-binding: names whose value list is constant, bound
to `values[0]`. -/
def nonDynamicWildcards (w : List (String × List String)) : Binding :=
  (w.filter (fun q => isConstList q.2)).map (fun q => (q.1, q.2.headD ""))

/-- The expansion loop plus the `insert_items` replacements of
`dynamic_branch`, fused to their net effect: every file that is in the
dynamic set is replaced, in place, by its zip expansions in positional
order (the source builds each expansion list `reversed` and
`Namedlist.insert_items` — modelled from the spec: the k concrete files
end up at the template's position in declaration order — re-reverses it);
a `KeyError` from `expand` aborts the whole call with `None`. -/
def replaceDyn (dyn : List Pattern) (w : List (String × List String)) :
    List Pattern → Option (List Pattern)
  | [] => some []
  | f :: rest => do
      let tail ← replaceDyn dyn w rest
      if f ∈ dyn then
        let es ← expand_zip f w
        pure (es.map Pattern.ofLit ++ tail)
      else pure (f :: tail)

/-- The flag-transfer loop: for each replaced template carrying the flag,
discard it from the set and add its expansions. -/
def transferFlags (flagset : List Pattern)
    (repls : List (Pattern × List Pattern)) : List Pattern :=
  repls.foldl
    (fun fs q => if q.1 ∈ fs then (fs.erase q.1) ++ q.2 else fs) flagset

/-- `Rule.dynamic_branch(wildcards, input=False)` (the output side).
Returns the Python result — `None` on `KeyError`, an uncaught
`RuleException` from the nested `expand_wildcards`, or the pair
`(branch, non_dynamic_wildcards)` — together with the post-call state of
the receiver (shared containers mutated in place, only the
`branch._input/_output/_params/_log` attribute rebinds are private to the
clone). -/
def dynamic_branch_output (r : Rule) (w : List (String × List String)) :
    Except RuleErr (Option (Rule × Binding)) × Rule :=
  match replaceDyn r.dynamic_output w r.output with
  | none => (.ok none, r)
  | some newOut =>
      let repls := r.output.filterMap (fun f =>
        if f ∈ r.dynamic_output then
          some (f, ((expand_zip f w).getD []).map Pattern.ofLit)
        else none)
      let sharedAfter : Rule :=
        { r with
          output := newOut
          dynamic_output := r.dynamic_output.filter (fun f => f ∉ r.output)
          temp_output := transferFlags r.temp_output repls
          protected_output := transferFlags r.protected_output repls
          wildcard_names := [] }
      let ndw := nonDynamicWildcards w
      match expand_wildcards sharedAfter ndw with
      | .error e => (.error e, sharedAfter)
      | .ok res =>
          (.ok (some
            ({ sharedAfter with
               input := res.input.map Item.file
               output := res.output
               params := res.params.map (fun s => Item.file (Pattern.ofLit s))
               log := res.log },
             ndw)),
           sharedAfter)

/-- The input-side replacement loop: the input list also holds callables,
which are never members of the dynamic set and stay in place. -/
def replaceDynItems (dyn : List Pattern) (w : List (String × List String)) :
    List Item → Option (List Item)
  | [] => some []
  | .file f :: rest => do
      let tail ← replaceDynItems dyn w rest
      if f ∈ dyn then
        let es ← expand_zip f w
        pure (es.map (fun s => Item.file (Pattern.ofLit s)) ++ tail)
      else pure (.file f :: tail)
  | .func g :: rest =>
      (replaceDynItems dyn w rest).map (fun tail => .func g :: tail)

/-- The file templates occurring in an item list. -/
def fileItems (its : List Item) : List Pattern :=
  its.filterMap (fun it => match it with | .file f => some f | .func _ => none)

/-- `Rule.dynamic_branch(wildcards, input=True)` (the input side): the
clone is returned unexpanded; the same in-place replacement mutates the
shared input list and dynamic-input set. -/
def dynamic_branch_input (r : Rule) (w : List (String × List String)) :
    Option Rule × Rule :=
  match replaceDynItems r.dynamic_input w r.input with
  | none => (none, r)
  | some newIn =>
      let sharedAfter : Rule :=
        { r with
          input := newIn
          dynamic_input :=
            r.dynamic_input.filter (fun f => f ∉ fileItems r.input) }
      (some sharedAfter, sharedAfter)

/-! ## Helper lemmas -/

theorem firstIndex_mem {l : List String} {x : String} {i : Nat}
    (h : firstIndex l x = some i) : x ∈ l := by
  induction l generalizing i with
  | nil => simp [firstIndex] at h
  | cons y ys ih =>
      by_cases hy : y = x
      · subst hy; exact List.mem_cons_self _ _
      · simp only [firstIndex, if_neg hy] at h
        rcases Option.map_eq_some'.mp h with ⟨j, hj, _⟩
        exact List.mem_cons_of_mem _ (ih hj)

theorem firstIndex_isSome {l : List String} {x : String} (h : x ∈ l) :
    (firstIndex l x).isSome := by
  induction l with
  | nil => simp at h
  | cons y ys ih =>
      by_cases hy : y = x
      · simp [firstIndex, hy]
      · rcases List.mem_cons.mp h with h' | h'
        · exact absurd h'.symm hy
        · simp only [firstIndex, if_neg hy]
          rcases Option.isSome_iff_exists.mp (ih h') with ⟨j, hj⟩
          simp [hj]

theorem compareClauses_skip {a b : String} (l rest : List (List String))
    (h : ∀ c ∈ l, ¬(a ∈ c ∧ b ∈ c)) :
    compareClauses (l ++ rest) a b = compareClauses rest a b := by
  induction l with
  | nil => rfl
  | cons c cs ih =>
      have hc := h c (List.mem_cons_self _ _)
      have ihrest := ih (fun c' hc' => h c' (List.mem_cons_of_mem _ hc'))
      simp only [List.cons_append, compareClauses]
      cases ha : firstIndex c a with
      | none => exact ihrest
      | some i =>
          cases hb : firstIndex c b with
          | none => exact ihrest
          | some j =>
              exact absurd ⟨firstIndex_mem ha, firstIndex_mem hb⟩ hc

theorem compareClauses_antisymm (l : List (List String)) (a b : String) :
    compareClauses l a b = - compareClauses l b a := by
  induction l with
  | nil => rfl
  | cons c cs ih =>
      simp only [compareClauses]
      cases ha : firstIndex c a with
      | none =>
          cases hb : firstIndex c b with
          | none => exact ih
          | some j => exact ih
      | some i =>
          cases hb : firstIndex c b with
          | none => exact ih
          | some j =>
              dsimp only
              split_ifs <;> omega

theorem gwLoop_no_match {p : String} (l : List Pattern)
    (bm : Option Binding) (bl : Nat) (h : ∀ o ∈ l, pmatch o p = none) :
    gwLoop p bm bl l = bm := by
  induction l generalizing bm bl with
  | nil => rfl
  | cons o rest ih =>
      have ho := h o (List.mem_cons_self _ _)
      simp only [gwLoop, ho]
      exact ih bm bl (fun o' h' => h o' (List.mem_cons_of_mem _ h'))

/-! ## Concrete instances shared by witnesses and counterexamples -/

/-- The S4 dynamic-output template `{tag}_{i}.out`. -/
def cPat : Pattern := [Seg.wild "tag", Seg.lit "_", Seg.wild "i", Seg.lit ".out"]

/-- The S4 rule: the single dynamic output `{tag}_{i}.out` flagged
`temp`. -/
def cRule : Rule :=
  { Rule.new "r" (some 5) (some "Snakefile") with
    output := [cPat]
    dynamic_output := [cPat]
    temp_output := [cPat]
    wildcard_names := ["tag", "i"] }

/-- The S4 wildcard-value lists `{tag: [A, A], i: [1, 2]}`. -/
def cw : List (String × List String) := [("tag", ["A", "A"]), ("i", ["1", "2"])]

/-! ## Claims -/

/-- Claim C1 (code_bug): the spec's invariant — `dynamic_branch` is pure
and leaves every field of the original rule observationally unchanged —
is violated by the code: `Rule(self)` copies references, the inner
`get_io` reads `self` instead of its parameter, and the in-place
`remove` / `insert_items` / `discard` / `update` / `clear` calls
therefore mutate the receiver.  Evaluated on the S4 rule, the call
empties the receiver's `wildcard_names` and `dynamic_output`, rewrites
its output list to the expansions, and moves its `temp` flag. -/
theorem claim_C1_code_bug :
    cRule.wildcard_names = ["tag", "i"] ∧
    (dynamic_branch_output cRule cw).2.wildcard_names = [] ∧
    cRule.dynamic_output = [cPat] ∧
    (dynamic_branch_output cRule cw).2.dynamic_output = [] ∧
    cRule.output = [cPat] ∧
    (dynamic_branch_output cRule cw).2.output =
      [Pattern.ofLit "A_1.out", Pattern.ofLit "A_2.out"] ∧
    cRule.temp_output = [cPat] ∧
    (dynamic_branch_output cRule cw).2.temp_output =
      [Pattern.ofLit "A_1.out", Pattern.ofLit "A_2.out"] := by
  refine ⟨rfl, by decide, rfl, by decide, rfl, by decide, rfl, by decide⟩

/-- Claim C4, counterexample: after adding the clauses `[r1, r2]` and then
`[r2, r1]`, `compare("r1", "r2")` returns `-1`, not the claimed `+1`
(the deciding, later clause places `r2` first, and the code returns
`sign(index(r2) - index(r1)) = -1`). -/
theorem claim_C4_counterexample :
    Ruleorder.compare
        ((Ruleorder.mk []).add ["r1", "r2"] |>.add ["r2", "r1"]) "r1" "r2"
      = -1 ∧
    Ruleorder.compare
        ((Ruleorder.mk []).add ["r1", "r2"] |>.add ["r2", "r1"]) "r1" "r2"
      ≠ 1 := by
  decide

/-- Claim C4 as amended: `compare` scans clauses latest-first and the
first clause containing both names decides, returning `+1` when the
first argument precedes the second in that clause and `-1` when the
second precedes the first; in particular, after adding `[r1, r2]` and
then `[r2, r1]`, `compare("r1","r2")` returns `-1` (shown by the
counterexample theorem). -/
theorem claim_C4_amended (ro : Ruleorder) (a b : String)
    (pre post : List (List String)) (c : List String) (i j : Nat)
    (hsplit : ro.order = pre ++ c :: post)
    (hpost : ∀ c' ∈ post, ¬(a ∈ c' ∧ b ∈ c'))
    (hia : firstIndex c a = some i) (hjb : firstIndex c b = some j) :
    ro.compare a b = if i < j then 1 else if j < i then -1 else 0 := by
  have : ro.order.reverse = post.reverse ++ c :: pre.reverse := by
    simp [hsplit]
  rw [Ruleorder.compare, this,
    compareClauses_skip post.reverse _ (by
      intro c' hc'
      exact hpost c' (List.mem_reverse.mp hc'))]
  simp only [compareClauses, hia, hjb]
  rcases lt_trichotomy i j with h | h | h
  · rw [if_neg (by omega), if_pos (by omega), if_pos h]
  · rw [if_neg (by omega), if_neg (by omega), if_neg (by omega),
      if_neg (by omega)]
  · rw [if_pos (by omega), if_neg (by omega), if_pos h]

/-- Witness for the amended C4: on the clause list `[[x, y]]` the name `x`
precedes `y`, so `compare(x, y) = 1`. -/
theorem claim_C4_amended_witness :
    Ruleorder.compare ⟨[["x", "y"]]⟩ "x" "y" = 1 := by
  have h := claim_C4_amended ⟨[["x", "y"]]⟩ "x" "y" [] [] ["x", "y"] 0 1
    rfl (by simp) (by decide) (by decide)
  simpa using h

/-- Claim C5 (confirmed): `Ruleorder.compare` is antisymmetric, and it
returns `0` whenever no single clause contains both names. -/
theorem claim_C5 (ro : Ruleorder) (a b : String) :
    ro.compare a b = - ro.compare b a ∧
    ((∀ c ∈ ro.order, ¬(a ∈ c ∧ b ∈ c)) → ro.compare a b = 0) := by
  constructor
  · exact compareClauses_antisymm _ a b
  · intro h
    rw [Ruleorder.compare,
      show ro.order.reverse = ro.order.reverse ++ [] by simp,
      compareClauses_skip _ [] (by
        intro c' hc'
        exact h c' (List.mem_reverse.mp hc'))]
    rfl

/-- Witness for C5 at a concrete clause list: the hypothesis that no
clause contains both `"a"` and `"b"` is discharged by computation. -/
theorem claim_C5_witness :
    Ruleorder.compare ⟨[["a", "c"], ["c", "b"]]⟩ "a" "b" =
      - Ruleorder.compare ⟨[["a", "c"], ["c", "b"]]⟩ "b" "a" ∧
    Ruleorder.compare ⟨[["a", "c"], ["c", "b"]]⟩ "a" "b" = 0 :=
  ⟨(claim_C5 ⟨[["a", "c"], ["c", "b"]]⟩ "a" "b").1,
   (claim_C5 ⟨[["a", "c"], ["c", "b"]]⟩ "a" "b").2 (by decide)⟩

/-- Claim C9 (confirmed): `Rule.__eq__` and `Rule.__hash__` depend only on
the rule's name: rules with equal names compare equal and hash equal
under any string hash, whatever their other fields. -/
theorem claim_C9 (strhash : String → Int) (a b : Rule) (h : a.name = b.name) :
    Rule.eq a b = true ∧ Rule.hashBy strhash a = Rule.hashBy strhash b := by
  constructor
  · simp [Rule.eq, h]
  · simp [Rule.hashBy, h]

/-- Two rules sharing a name but differing in outputs, flags and
priority. -/
def r9a : Rule := Rule.new "same" none none

/-- The second rule of the C9 witness pair. -/
def r9b : Rule :=
  { Rule.new "same" (some 7) (some "other") with
    output := [cPat]
    temp_output := [cPat]
    wildcard_names := ["tag", "i"]
    priority := 50 }

/-- Witness for C9: the two concrete rules above compare equal and hash
equal (under string length as the stand-in hash). -/
theorem claim_C9_witness :
    Rule.eq r9a r9b = true ∧
    Rule.hashBy (fun s => (s.length : Int)) r9a =
      Rule.hashBy (fun s => (s.length : Int)) r9b :=
  claim_C9 (fun s => (s.length : Int)) r9a r9b rfl

/-- Claim C10 (confirmed): `get_wildcards(rule, None)` returns the empty
binding (the empty dict, not `None`) for every rule, while a non-`None`
path matched by no output yields `None`. -/
theorem claim_C10 :
    (∀ r : Rule, r.get_wildcards none = some []) ∧
    (∀ (r : Rule) (p : String), (∀ o ∈ r.output, pmatch o p = none) →
      r.get_wildcards (some p) = none) := by
  refine ⟨fun r => rfl, fun r p h => ?_⟩
  rw [Rule.get_wildcards]
  exact gwLoop_no_match r.output none 0 h

/-- A one-output rule used by the C10 witness. -/
def r10 : Rule :=
  { Rule.new "r10" none none with
    output := [[Seg.wild "x", Seg.lit ".txt"]]
    wildcard_names := ["x"] }

/-- Witness for C10: on a concrete rule, `None` input yields the empty
binding and a non-matching path yields `None` (its hypothesis — no
output matches `"zzz"` — is discharged by computation). -/
theorem claim_C10_witness :
    r10.get_wildcards none = some [] ∧
    r10.get_wildcards (some "zzz") = none :=
  ⟨claim_C10.1 r10, claim_C10.2 r10 "zzz" (by decide)⟩

/-- Claim C6 (confirmed): `expand_wildcards` fails with the
"Could not resolve wildcards" `RuleException` — carrying the rule's name,
line and file — whenever some member of `wildcard_names` is missing from
the binding; the conclusion holds for every rule, whatever its inputs,
params, outputs or log would do, because the check precedes all
concretization. -/
theorem claim_C6 (r : Rule) (w : Binding) (n : String)
    (hn : n ∈ r.wildcard_names) (hmiss : (w.lookup n).isNone) :
    expand_wildcards r w =
      .error (.unresolvedWildcards r.name r.lineno r.snakefile) := by
  have hmem : n ∈ r.wildcard_names.filter (fun x => (w.lookup x).isNone) :=
    List.mem_filter.mpr ⟨hn, by simpa using hmiss⟩
  rcases hcons : r.wildcard_names.filter (fun x => (w.lookup x).isNone) with
    _ | ⟨m, ms⟩
  · rw [hcons] at hmem; cases hmem
  · simp only [expand_wildcards, hcons, List.isEmpty_cons, Bool.false_eq_true,
      if_false]

/-- A rule whose input callable raises, with an unresolvable wildcard: the
missing-wildcard error fires before the callable could run. -/
def r6 : Rule :=
  { Rule.new "r6" (some 3) (some "Snakefile") with
    input := [Item.func (fun _ => FuncRet.raises "boom")]
    wildcard_names := ["x"] }

/-- Witness for C6: the concrete rule above, expanded under the empty
binding, fails with the missing-wildcard error (not with the callable's
exception). -/
theorem claim_C6_witness :
    expand_wildcards r6 [] =
      .error (.unresolvedWildcards "r6" (some 3) (some "Snakefile")) :=
  claim_C6 r6 [] "x" (by decide) (by decide)

/-- A rule whose single input callable raises. -/
def r7 : Rule :=
  { Rule.new "r7" none none with
    input := [Item.func (fun _ => FuncRet.raises "boom")] }

/-- Claim C7, counterexample: nothing in `rules.py` catches an exception
raised by an input callable (the surrounding `try` catches only
`WildcardError`), so the raw user exception propagates unwrapped instead
of being surfaced as the `BadInputFunction` `RuleException`. -/
theorem claim_C7_counterexample :
    expand_wildcards r7 [] = .error (.userRaise "boom") ∧
    ∀ name, expand_wildcards r7 [] ≠ .error (.badInputFunction name) := by
  refine ⟨rfl, fun name h => ?_⟩
  rw [show expand_wildcards r7 [] = .error (.userRaise "boom") from rfl] at h
  simp at h

/-- The lemma behind the `BadInputFunction` half: the per-value string
check fails at the first non-string value. -/
theorem checkStrs_notStr (rn : String) (pre : List Pattern)
    (post : List FuncVal) :
    checkStrs rn (pre.map FuncVal.strv ++ FuncVal.notStr :: post) =
      .error (.badInputFunction rn) := by
  induction pre with
  | nil => rfl
  | cons p ps ih =>
      simp only [List.map_cons, List.cons_append, checkStrs, List.append_eq, ih]
      rfl

/-- Claim C7 as amended: a return value of an input callable that is not a
string (nor an iterable of strings) fails with the `BadInputFunction`
`RuleException`, but an exception the callable raises propagates to the
caller unwrapped — it is not converted to `BadInputFunction`. -/
theorem claim_C7_amended (r : Rule) (w : Binding) (g : Binding → FuncRet)
    (rest : List Item) (hin : r.input = Item.func g :: rest)
    (hcov : ∀ n ∈ r.wildcard_names, (w.lookup n).isSome) :
    (∀ msg, g w = .raises msg →
      expand_wildcards r w = .error (.userRaise msg)) ∧
    (∀ (pre : List Pattern) (post : List FuncVal),
      g w = .ret (pre.map FuncVal.strv ++ FuncVal.notStr :: post) →
      expand_wildcards r w = .error (.badInputFunction r.name)) := by
  have hfilter : r.wildcard_names.filter (fun x => (w.lookup x).isNone) = [] := by
    rw [List.filter_eq_nil_iff]
    intro n hn
    simpa using hcov n hn
  constructor
  · intro msg hraise
    simp only [expand_wildcards, hfilter, List.isEmpty_nil, if_true, hin,
      expandInputs, hraise]
  · intro pre post hret
    simp only [expand_wildcards, hfilter, List.isEmpty_nil, if_true, hin,
      expandInputs, hret, checkStrs_notStr]

/-- A rule whose single input callable returns a non-string value. -/
def r7b : Rule :=
  { Rule.new "r7b" none none with
    input := [Item.func (fun _ => FuncRet.ret [FuncVal.notStr])] }

/-- Witness for the amended C7: the concrete callable returning a
non-string makes `expand_wildcards` fail with `BadInputFunction`. -/
theorem claim_C7_amended_witness :
    expand_wildcards r7b [] = .error (.badInputFunction "r7b") :=
  (claim_C7_amended r7b [] (fun _ => FuncRet.ret [FuncVal.notStr]) [] rfl
    (by simp [r7b, Rule.new])).2 [] [] rfl

/-! ## C8: `set_output` wildcard-set validation -/

theorem eqSet_iff {a b : List String} :
    eqSet a b = true ↔ ((∀ x ∈ a, x ∈ b) ∧ (∀ x ∈ b, x ∈ a)) := by
  simp [eqSet, List.elem_iff]

theorem eqSet_refl (a : List String) : eqSet a a = true :=
  eqSet_iff.mpr ⟨fun _ h => h, fun _ h => h⟩

theorem eqSet_symm {a b : List String} (h : eqSet a b = true) :
    eqSet b a = true := by
  rcases eqSet_iff.mp h with ⟨h1, h2⟩
  exact eqSet_iff.mpr ⟨h2, h1⟩

theorem eqSet_trans {a b c : List String} (h1 : eqSet a b = true)
    (h2 : eqSet b c = true) : eqSet a c = true := by
  rcases eqSet_iff.mp h1 with ⟨hab, hba⟩
  rcases eqSet_iff.mp h2 with ⟨hbc, hcb⟩
  exact eqSet_iff.mpr ⟨fun x hx => hbc x (hab x hx), fun x hx => hba x (hcb x hx)⟩

theorem foldAdd_fields (items : List OutItem) (r : Rule) :
    (items.foldl addOutputItem r).name = r.name ∧
    (items.foldl addOutputItem r).wildcard_names = r.wildcard_names ∧
    (items.foldl addOutputItem r).output = r.output ++ items.map (·.pat) := by
  induction items generalizing r with
  | nil => simp
  | cons it its ih =>
      rcases ih (addOutputItem r it) with ⟨h1, h2, h3⟩
      refine ⟨?_, ?_, ?_⟩
      · rw [List.foldl_cons, h1]; rfl
      · rw [List.foldl_cons, h2]; rfl
      · rw [List.foldl_cons, h3]
        show (r.output ++ [it.pat]) ++ _ = _
        simp

theorem foldAdd_dyn (items : List OutItem) (r : Rule)
    (h : ∀ it ∈ items, it.dynamic = false) :
    (items.foldl addOutputItem r).dynamic_output = r.dynamic_output := by
  induction items generalizing r with
  | nil => rfl
  | cons it its ih =>
      have hd := h it (List.mem_cons_self _ _)
      rw [List.foldl_cons, ih _ (fun x hx => h x (List.mem_cons_of_mem _ hx))]
      simp [addOutputItem, hd]

/-- Once a nonempty wildcard-name set is locked, any later output whose
set differs triggers the mismatch `SyntaxError`. -/
theorem checkOutputs_locked (n : String) (wn : List String) (hwn : wn ≠ [])
    (pats : List Pattern)
    (hex : ∃ o ∈ pats, ¬ eqSet wn (wildNamesList o) = true) :
    checkOutputs n [] wn pats = .error (.wildcardSetMismatch n) := by
  induction pats with
  | nil => rcases hex with ⟨o, ho, _⟩; cases ho
  | cons o rest ih =>
      simp only [checkOutputs, ne_eq, not_true_eq_false, false_and, if_false,
        if_neg (by simp : ¬([] ≠ ([] : List Pattern) ∧ o ∉ ([] : List Pattern)))]
      rw [if_pos hwn]
      by_cases heq : eqSet wn (wildNamesList o) = true
      · rw [if_neg (by simpa using heq)]
        rcases hex with ⟨o', ho', hne⟩
        rcases List.mem_cons.mp ho' with h' | h'
        · subst h'; exact absurd heq hne
        · exact ih ⟨o', h', hne⟩
      · rw [if_pos (by simpa using heq)]

/-- From an empty (hence unlocked) running set, two outputs with nonempty,
set-unequal wildcard-name lists force the mismatch error. -/
theorem checkOutputs_mismatch (n : String) (pats : List Pattern)
    (hex : ∃ p1 ∈ pats, ∃ p2 ∈ pats, wildNamesList p1 ≠ [] ∧
      wildNamesList p2 ≠ [] ∧ ¬ eqSet (wildNamesList p1) (wildNamesList p2) = true) :
    checkOutputs n [] [] pats = .error (.wildcardSetMismatch n) := by
  induction pats with
  | nil => rcases hex with ⟨p1, h1, _⟩; cases h1
  | cons o rest ih =>
      rcases hex with ⟨p1, h1, p2, h2, hn1, hn2, hne⟩
      simp only [checkOutputs, ne_eq, not_true_eq_false, false_and, if_false,
        if_neg (by simp : ¬([] ≠ ([] : List Pattern) ∧ o ∉ ([] : List Pattern)))]
      by_cases hwc : wildNamesList o = []
      · rw [hwc]
        have hp1 : p1 ∈ rest := by
          rcases List.mem_cons.mp h1 with h' | h'
          · subst h'; exact absurd hwc hn1
          · exact h'
        have hp2 : p2 ∈ rest := by
          rcases List.mem_cons.mp h2 with h' | h'
          · subst h'; exact absurd hwc hn2
          · exact h'
        exact ih ⟨p1, hp1, p2, hp2, hn1, hn2, hne⟩
      · refine checkOutputs_locked n _ hwc rest ?_
        by_cases he1 : eqSet (wildNamesList o) (wildNamesList p1) = true
        · have he2 : ¬ eqSet (wildNamesList o) (wildNamesList p2) = true := by
            intro he2
            exact hne (eqSet_trans (eqSet_symm he1) he2)
          have hp2 : p2 ∈ rest := by
            rcases List.mem_cons.mp h2 with h' | h'
            · subst h'; exact absurd (eqSet_refl _) he2
            · exact h'
          exact ⟨p2, hp2, he2⟩
        · have hp1 : p1 ∈ rest := by
            rcases List.mem_cons.mp h1 with h' | h'
            · subst h'; exact absurd (eqSet_refl _) he1
            · exact h'
          exact ⟨p1, hp1, he1⟩

/-- Claim C8, counterexample: the outputs `["a.x", "{b}.y"]` have
different wildcard-name sets (`{}` versus `{b}`), yet `set_output`
accepts the rule — an output whose wildcard set is empty leaves
`self.wildcard_names` falsy, so the comparison is skipped. -/
theorem claim_C8_counterexample :
    (set_output (Rule.new "r8" none none)
        [⟨[Seg.lit "a.x"], false, false, false⟩,
         ⟨[Seg.wild "b", Seg.lit ".y"], false, false, false⟩]).isOk = true ∧
    ¬ eqSet (wildNamesList [Seg.lit "a.x"])
        (wildNamesList [Seg.wild "b", Seg.lit ".y"]) = true := by
  decide

/-- Claim C8 as amended: for a rule without dynamic outputs, construction
fails with `WildcardSetMismatch` whenever two output patterns have
different *nonempty* wildcard-name sets — in particular
`["{a}.x", "{b}.y"]` is rejected — while outputs whose wildcard set is
empty are skipped by the check, so `["a.x", "{b}.y"]` is accepted
(counterexample theorem). -/
theorem claim_C8_amended (name : String) (items : List OutItem)
    (hnd : ∀ it ∈ items, it.dynamic = false)
    (iti itj : OutItem) (hmi : iti ∈ items) (hmj : itj ∈ items)
    (hne1 : wildNamesList iti.pat ≠ []) (hne2 : wildNamesList itj.pat ≠ [])
    (hdiff : ¬ eqSet (wildNamesList iti.pat) (wildNamesList itj.pat) = true) :
    set_output (Rule.new name none none) items =
      .error (.wildcardSetMismatch name) := by
  rcases foldAdd_fields items (Rule.new name none none) with ⟨h1, h2, h3⟩
  have h4 := foldAdd_dyn items (Rule.new name none none) hnd
  rw [set_output, h1, h2, h3, h4]
  show ((checkOutputs name [] [] (items.map (·.pat))).map _) = _
  rw [checkOutputs_mismatch name (items.map (·.pat))
    ⟨iti.pat, List.mem_map_of_mem _ hmi, itj.pat, List.mem_map_of_mem _ hmj,
      hne1, hne2, hdiff⟩]
  rfl

/-- Witness for the amended C8: the rule with outputs
`["{a}.x", "{b}.y"]` is rejected with the mismatch error. -/
theorem claim_C8_amended_witness :
    set_output (Rule.new "r8" none none)
        [⟨[Seg.wild "a", Seg.lit ".x"], false, false, false⟩,
         ⟨[Seg.wild "b", Seg.lit ".y"], false, false, false⟩] =
      .error (.wildcardSetMismatch "r8") :=
  claim_C8_amended "r8" _ (by decide)
    ⟨[Seg.wild "a", Seg.lit ".x"], false, false, false⟩
    ⟨[Seg.wild "b", Seg.lit ".y"], false, false, false⟩
    (by decide) (by decide) (by decide) (by decide) (by decide)

/-! ## C3: the output side of `dynamic_branch` -/

theorem zipCount_eq {w : List (String × List String)} {k : Nat}
    (hlen : ∀ q ∈ w, q.2.length = k) (hw : w ≠ []) : zipCount w = k := by
  induction w with
  | nil => exact absurd rfl hw
  | cons q rest ih =>
      cases rest with
      | nil => simpa [zipCount] using hlen q (List.mem_cons_self _ _)
      | cons q' rest' =>
          rw [zipCount, ih (fun x hx => hlen x (List.mem_cons_of_mem _ hx))
            (by simp), hlen q (List.mem_cons_self _ _)]
          simp

theorem expand_zip_some (f : Pattern) (w : List (String × List String))
    (hbound : ∀ n ∈ wildNamesList f, (w.lookup n).isSome = true) :
    expand_zip f w = some (zipExpansions f w (zipCount w)) := by
  rw [expand_zip, if_neg]
  rintro ⟨-, hall⟩
  exact hall (List.all_eq_true.mpr (fun n hn => by simpa using hbound n hn))

theorem replaceDyn_all (dyn : List Pattern) (w : List (String × List String))
    (k : Nat) (outs : List Pattern) (hsub : ∀ f ∈ outs, f ∈ dyn)
    (hez : ∀ f ∈ outs, expand_zip f w = some (zipExpansions f w k)) :
    replaceDyn dyn w outs =
      some (outs.flatMap (fun f => (zipExpansions f w k).map Pattern.ofLit)) := by
  induction outs with
  | nil => rfl
  | cons f rest ih =>
      rw [replaceDyn,
        ih (fun x hx => hsub x (List.mem_cons_of_mem _ hx))
          (fun x hx => hez x (List.mem_cons_of_mem _ hx))]
      simp only [Option.bind_eq_bind, Option.some_bind,
        if_pos (hsub f (List.mem_cons_self _ _)),
        hez f (List.mem_cons_self _ _), List.flatMap_cons]
      rfl

theorem filterMap_repls (dyn : List Pattern) (w : List (String × List String))
    (k : Nat) (outs : List Pattern) (hsub : ∀ f ∈ outs, f ∈ dyn)
    (hez : ∀ f ∈ outs, expand_zip f w = some (zipExpansions f w k)) :
    outs.filterMap (fun f =>
        if f ∈ dyn then some (f, ((expand_zip f w).getD []).map Pattern.ofLit)
        else none) =
      outs.map (fun f => (f, (zipExpansions f w k).map Pattern.ofLit)) := by
  induction outs with
  | nil => rfl
  | cons f rest ih =>
      rw [List.filterMap_cons, List.map_cons,
        ih (fun x hx => hsub x (List.mem_cons_of_mem _ hx))
          (fun x hx => hez x (List.mem_cons_of_mem _ hx))]
      rw [if_pos (hsub f (List.mem_cons_self _ _)),
        hez f (List.mem_cons_self _ _)]
      rfl

theorem applyWildcards_ofLit (s : String) (b : Binding) :
    applyWildcards (Pattern.ofLit s) b false [] = .ok s := by
  simp [applyWildcards, Pattern.ofLit, renderSegs, Except.map]

theorem expandOutputs_lits (r : Rule) (w : Binding) (ps : List Pattern)
    (hall : ∀ p ∈ ps, ∃ s, p = Pattern.ofLit s) :
    expandOutputs r w ps = .ok ps := by
  induction ps with
  | nil => rfl
  | cons p rest ih =>
      rcases hall p (List.mem_cons_self _ _) with ⟨s, hs⟩
      rw [expandOutputs, hs, applyWildcards_ofLit,
        ih (fun x hx => hall x (List.mem_cons_of_mem _ hx))]
      rfl

theorem transferFlags_cons (fs : List Pattern) (q : Pattern × List Pattern)
    (rest : List (Pattern × List Pattern)) :
    transferFlags fs (q :: rest) =
      transferFlags (if q.1 ∈ fs then (fs.erase q.1) ++ q.2 else fs) rest := by
  rfl

theorem transferFlags_mono (repls : List (Pattern × List Pattern))
    (fs : List Pattern) (e : Pattern) (he : e ∈ fs)
    (hne : ∀ q ∈ repls, e ≠ q.1) : e ∈ transferFlags fs repls := by
  induction repls generalizing fs with
  | nil => exact he
  | cons q rest ih =>
      rw [transferFlags_cons]
      refine ih _ ?_ (fun x hx => hne x (List.mem_cons_of_mem _ hx))
      by_cases hq : q.1 ∈ fs
      · rw [if_pos hq]
        exact List.mem_append_left _
          (List.mem_erase_of_ne (hne q (List.mem_cons_self _ _)) |>.mpr he)
      · rwa [if_neg hq]

theorem hasWild_ne {a b : Pattern} (ha : hasWild a = true)
    (hb : hasWild b = false) : b ≠ a := by
  intro h; rw [h, ha] at hb; cases hb

theorem transferFlags_mem (repls : List (Pattern × List Pattern))
    (fs : List Pattern)
    (hwildT : ∀ q ∈ repls, hasWild q.1 = true)
    (hlitE : ∀ q ∈ repls, ∀ e ∈ q.2, hasWild e = false)
    (hnd : (repls.map Prod.fst).Nodup)
    (f : Pattern) (exp : List Pattern) (hmem : (f, exp) ∈ repls) (hf : f ∈ fs)
    (e : Pattern) (he : e ∈ exp) : e ∈ transferFlags fs repls := by
  induction repls generalizing fs with
  | nil => cases hmem
  | cons q rest ih =>
      rw [transferFlags_cons]
      rcases List.mem_cons.mp hmem with hq | hq
      · have hq1 : q.1 = f := by rw [← hq]
        have hq2 : q.2 = exp := by rw [← hq]
        rw [if_pos (hq1 ▸ hf)]
        refine transferFlags_mono rest _ e
          (List.mem_append_right _ (hq2 ▸ he)) (fun q' hq' => ?_)
        exact hasWild_ne (hwildT q' (List.mem_cons_of_mem _ hq'))
          (hlitE q (List.mem_cons_self _ _) e (hq2 ▸ he))
      · have hfne : f ≠ q.1 := by
          intro hcontra
          have : q.1 ∈ rest.map Prod.fst := by
            rw [← hcontra]
            exact List.mem_map_of_mem _ hq
          exact (List.nodup_cons.mp hnd).1 this
        refine ih _ (fun x hx => hwildT x (List.mem_cons_of_mem _ hx))
          (fun x hx => hlitE x (List.mem_cons_of_mem _ hx))
          (List.nodup_cons.mp hnd).2 hq ?_
        by_cases hqf : q.1 ∈ fs
        · rw [if_pos hqf]
          exact List.mem_append_left _ ((List.mem_erase_of_ne hfne).mpr hf)
        · rwa [if_neg hqf]

theorem nonDynamic_mem_iff (w : List (String × List String)) (n : String)
    (v : String) :
    (n, v) ∈ nonDynamicWildcards w ↔
      ∃ vs, (n, vs) ∈ w ∧ isConstList vs = true ∧ v = vs.headD "" := by
  constructor
  · intro h
    rcases List.mem_map.mp h with ⟨q, hq, heq⟩
    rcases List.mem_filter.mp hq with ⟨hw, hconst⟩
    refine ⟨q.2, ?_, by simpa using hconst, ?_⟩
    · have h1 : q.1 = n := congrArg Prod.fst heq
      rw [← h1]; exact hw
    · exact (congrArg Prod.snd heq).symm
  · rintro ⟨vs, hw, hconst, hv⟩
    refine List.mem_map.mpr ⟨(n, vs), List.mem_filter.mpr ⟨hw, by simpa using hconst⟩, ?_⟩
    simp [hv]

theorem expand_wildcards_trivial (r : Rule) (w : Binding)
    (hwn : r.wildcard_names = []) (hinp : r.input = [])
    (hpar : r.params = []) (hlog : r.log = none)
    (hlits : ∀ p ∈ r.output, ∃ s, p = Pattern.ofLit s) :
    expand_wildcards r w = .ok ⟨[], r.output, [], none⟩ := by
  rw [expand_wildcards, hwn, hinp, hpar, hlog]
  simp only [List.filter_nil, List.isEmpty_nil, if_true, expandInputs,
    expandParams]
  rw [expandOutputs_lits _ _ _ hlits]

/-- Claim C3 (confirmed): on the output side, `dynamic_branch` over
equal-length wildcard lists returns a clone whose output list replaces
each dynamic template, in place, by its position-wise zip expansions in
declaration order, transfers the template's `temp`/`protected` flag onto
each expansion, clears the clone's `wildcard_names`, and pairs the clone
with the non-dynamic binding holding exactly the names whose value list
is constant.  Hypotheses: all outputs are dynamic (the construction
invariant forbids mixing), distinct, and contain a placeholder; the lists
cover their placeholder names; inputs, params and log are empty so the
nested re-expansion succeeds. -/
theorem claim_C3 (r : Rule) (w : List (String × List String)) (k : Nat)
    (hdyn : r.dynamic_output = r.output)
    (hnodup : r.output.Nodup)
    (hwild : ∀ f ∈ r.output, hasWild f = true)
    (hlen : ∀ q ∈ w, q.2.length = k) (hw : w ≠ [])
    (hbound : ∀ f ∈ r.output, ∀ n ∈ wildNamesList f, (w.lookup n).isSome = true)
    (hinp : r.input = []) (hpar : r.params = []) (hlog : r.log = none) :
    ∃ br, (dynamic_branch_output r w).1 =
        .ok (some (br, nonDynamicWildcards w)) ∧
      br.output = r.output.flatMap (fun f => (zipExpansions f w k).map Pattern.ofLit) ∧
      br.wildcard_names = [] ∧
      (∀ f ∈ r.output, f ∈ r.temp_output → ∀ s ∈ zipExpansions f w k,
        Pattern.ofLit s ∈ br.temp_output) ∧
      (∀ f ∈ r.output, f ∈ r.protected_output → ∀ s ∈ zipExpansions f w k,
        Pattern.ofLit s ∈ br.protected_output) ∧
      (∀ n v, (n, v) ∈ nonDynamicWildcards w ↔
        ∃ vs, (n, vs) ∈ w ∧ isConstList vs = true ∧ v = vs.headD "") := by
  have hzc : zipCount w = k := zipCount_eq hlen hw
  have hez : ∀ f ∈ r.output, expand_zip f w = some (zipExpansions f w k) :=
    fun f hf => by rw [expand_zip_some f w (hbound f hf), hzc]
  have hsub : ∀ f ∈ r.output, f ∈ r.dynamic_output := fun f hf => hdyn ▸ hf
  have hrd : replaceDyn r.dynamic_output w r.output =
      some (r.output.flatMap (fun f => (zipExpansions f w k).map Pattern.ofLit)) :=
    replaceDyn_all _ w k _ hsub hez
  have hrepls := filterMap_repls r.dynamic_output w k r.output hsub hez
  have hlits : ∀ p ∈ r.output.flatMap (fun f => (zipExpansions f w k).map Pattern.ofLit),
      ∃ s, p = Pattern.ofLit s := by
    intro p hp
    rcases List.mem_flatMap.mp hp with ⟨f, _, hpf⟩
    rcases List.mem_map.mp hpf with ⟨s, _, hs⟩
    exact ⟨s, hs.symm⟩
  have hexp : expand_wildcards
      { r with
        output := r.output.flatMap (fun f => (zipExpansions f w k).map Pattern.ofLit)
        dynamic_output := r.dynamic_output.filter (fun f => f ∉ r.output)
        temp_output := transferFlags r.temp_output
          (r.output.map (fun f => (f, (zipExpansions f w k).map Pattern.ofLit)))
        protected_output := transferFlags r.protected_output
          (r.output.map (fun f => (f, (zipExpansions f w k).map Pattern.ofLit)))
        wildcard_names := [] } (nonDynamicWildcards w) =
      .ok ⟨[], r.output.flatMap (fun f => (zipExpansions f w k).map Pattern.ofLit),
        [], none⟩ :=
    expand_wildcards_trivial _ _ rfl hinp hpar hlog hlits
  have hfst : (r.output.map
      (fun f => (f, (zipExpansions f w k).map Pattern.ofLit))).map Prod.fst =
      r.output := by
    rw [List.map_map]; exact List.map_id'' (fun x => rfl) _
  have hmain : (dynamic_branch_output r w).1 =
      .ok (some
        ({ r with
           input := []
           output := r.output.flatMap (fun f => (zipExpansions f w k).map Pattern.ofLit)
           params := []
           log := none
           dynamic_output := r.dynamic_output.filter (fun f => f ∉ r.output)
           temp_output := transferFlags r.temp_output
             (r.output.map (fun f => (f, (zipExpansions f w k).map Pattern.ofLit)))
           protected_output := transferFlags r.protected_output
             (r.output.map (fun f => (f, (zipExpansions f w k).map Pattern.ofLit)))
           wildcard_names := [] },
         nonDynamicWildcards w)) := by
    rw [dynamic_branch_output, hrd]
    dsimp only
    rw [hrepls, hexp]
    rfl
  have hwT : ∀ q ∈ r.output.map
      (fun f => (f, (zipExpansions f w k).map Pattern.ofLit)),
      hasWild q.1 = true := by
    intro q hq
    rcases List.mem_map.mp hq with ⟨f', hf', rfl⟩
    exact hwild f' hf'
  have hlE : ∀ q ∈ r.output.map
      (fun f => (f, (zipExpansions f w k).map Pattern.ofLit)),
      ∀ e ∈ q.2, hasWild e = false := by
    intro q hq e he
    rcases List.mem_map.mp hq with ⟨f', hf', rfl⟩
    rcases List.mem_map.mp he with ⟨s', hs', rfl⟩
    rfl
  have hND : ((r.output.map
      (fun f => (f, (zipExpansions f w k).map Pattern.ofLit))).map
      Prod.fst).Nodup := by
    rw [hfst]; exact hnodup
  refine ⟨_, hmain, rfl, rfl, ?_, ?_, nonDynamic_mem_iff w⟩
  · intro f hf hft s hs
    exact transferFlags_mem _ r.temp_output hwT hlE hND f
      ((zipExpansions f w k).map Pattern.ofLit)
      (List.mem_map_of_mem _ hf) hft (Pattern.ofLit s)
      (List.mem_map_of_mem _ hs)
  · intro f hf hft s hs
    exact transferFlags_mem _ r.protected_output hwT hlE hND f
      ((zipExpansions f w k).map Pattern.ofLit)
      (List.mem_map_of_mem _ hf) hft (Pattern.ofLit s)
      (List.mem_map_of_mem _ hs)

/-- Witness for C3: the S4 instance — dynamic output `{tag}_{i}.out` with
lists `{tag: [A, A], i: [1, 2]}` — instantiates the theorem; additionally
the expansions evaluate to `["A_1.out", "A_2.out"]`, the non-dynamic
binding to `{tag: "A"}`, and `i` is absent from it. -/
theorem claim_C3_witness :
    (∃ br, (dynamic_branch_output cRule cw).1 =
        .ok (some (br, nonDynamicWildcards cw)) ∧
      br.output = cRule.output.flatMap
        (fun f => (zipExpansions f cw 2).map Pattern.ofLit) ∧
      br.wildcard_names = [] ∧
      (∀ f ∈ cRule.output, f ∈ cRule.temp_output → ∀ s ∈ zipExpansions f cw 2,
        Pattern.ofLit s ∈ br.temp_output) ∧
      (∀ f ∈ cRule.output, f ∈ cRule.protected_output →
        ∀ s ∈ zipExpansions f cw 2, Pattern.ofLit s ∈ br.protected_output) ∧
      (∀ n v, (n, v) ∈ nonDynamicWildcards cw ↔
        ∃ vs, (n, vs) ∈ cw ∧ isConstList vs = true ∧ v = vs.headD "")) ∧
    cRule.output.flatMap (fun f => (zipExpansions f cw 2).map Pattern.ofLit) =
      [Pattern.ofLit "A_1.out", Pattern.ofLit "A_2.out"] ∧
    nonDynamicWildcards cw = [("tag", "A")] ∧
    (nonDynamicWildcards cw).lookup "i" = none :=
  ⟨claim_C3 cRule cw 2 rfl (by decide) (by decide) (by decide) (by decide)
      (by decide) rfl rfl rfl,
   by decide, by decide, by decide⟩

/-! ## C2: `get_wildcards` picks the most specific match -/

theorem hasWild_cons_lit (t : String) (rest : List Seg) :
    hasWild (Seg.lit t :: rest) = hasWild rest := by
  simp [hasWild]

theorem hasWild_cons_wild (n : String) (rest : List Seg) :
    hasWild (Seg.wild n :: rest) = true := by
  simp [hasWild]

theorem matchSegs_extend (segs : List Seg) :
    ∀ (cs : List Char) (b0 b : Binding), matchSegs segs cs b0 = some b →
      ∃ ext, b = b0 ++ ext := by
  induction segs with
  | nil =>
      intro cs b0 b h
      rw [matchSegs] at h
      split at h
      · refine ⟨[], ?_⟩
        injection h with h'
        rw [← h']; simp
      · cases h
  | cons s rest ih =>
      intro cs b0 b h
      cases s with
      | lit t =>
          rw [matchSegs] at h
          split at h
          · exact ih _ _ _ h
          · cases h
      | wild n =>
          rw [matchSegs] at h
          rcases List.exists_of_findSome?_eq_some h with ⟨q, hq, hf⟩
          split at hf
          · cases hf
          · split at hf
            · split at hf
              · exact ih _ _ _ hf
              · cases hf
            · rcases ih _ _ _ hf with ⟨ext, hext⟩
              exact ⟨_ :: ext, by simpa using hext⟩

theorem matchSegs_no_wild (segs : List Seg) :
    ∀ (cs : List Char) (b0 b : Binding), hasWild segs = false →
      matchSegs segs cs b0 = some b → b = b0 := by
  induction segs with
  | nil =>
      intro cs b0 b _ h
      rw [matchSegs] at h
      split at h
      · injection h with h'; exact h'.symm
      · cases h
  | cons s rest ih =>
      intro cs b0 b hw h
      cases s with
      | lit t =>
          rw [hasWild_cons_lit] at hw
          rw [matchSegs] at h
          split at h
          · exact ih _ _ _ hw h
          · cases h
      | wild n => rw [hasWild_cons_wild] at hw; cases hw

theorem matchSegs_wild_ne_nil (segs : List Seg) :
    ∀ (cs : List Char) (b : Binding), hasWild segs = true →
      matchSegs segs cs [] = some b → b ≠ [] := by
  induction segs with
  | nil => intro cs b hw _; simp [hasWild] at hw
  | cons s rest ih =>
      intro cs b hw h
      cases s with
      | lit t =>
          rw [hasWild_cons_lit] at hw
          rw [matchSegs] at h
          split at h
          · exact ih _ _ hw h
          · cases h
      | wild n =>
          rw [matchSegs] at h
          rcases List.exists_of_findSome?_eq_some h with ⟨q, hq, hf⟩
          split at hf
          · cases hf
          · simp only [List.lookup] at hf
            rcases matchSegs_extend rest _ _ _ hf with ⟨ext, hext⟩
            intro hb
            rw [hb] at hext
            cases hext

theorem pmatch_ne_nil {o : Pattern} {p : String} {b : Binding}
    (hw : hasWild o = true) (h : pmatch o p = some b) : b ≠ [] :=
  matchSegs_wild_ne_nil o _ b hw h

theorem pmatch_nil {o : Pattern} {p : String} {b : Binding}
    (hw : hasWild o = false) (h : pmatch o p = some b) : b = [] :=
  matchSegs_no_wild o _ [] b hw h

theorem pyFalsy_of_ne_nil {b : Binding} (h : b ≠ []) :
    pyFalsy (some b) = false := by
  cases b with
  | nil => exact absurd rfl h
  | cons q rest => rfl

/-- The invariant of the `get_wildcards` loop once a nonempty best match
is held: either no later match improves on it and it is returned, or the
first strictly better later match (made best at its first minimal
occurrence) is returned. -/
theorem gwA (p : String) (l : List Pattern)
    (hne : ∀ o ∈ l, ∀ b, pmatch o p = some b → b ≠ []) :
    ∀ (b0 : Binding), b0 ≠ [] →
    (gwLoop p (some b0) (get_wildcard_len b0) l = some b0 ∧
      ∀ (j : Nat) (oj : Pattern) (bj : Binding), l[j]? = some oj →
        pmatch oj p = some bj →
        get_wildcard_len b0 ≤ get_wildcard_len bj) ∨
    (∃ (i : Nat) (oi : Pattern) (res : Binding), l[i]? = some oi ∧
      pmatch oi p = some res ∧
      gwLoop p (some b0) (get_wildcard_len b0) l = some res ∧ res ≠ [] ∧
      get_wildcard_len res < get_wildcard_len b0 ∧
      (∀ (j : Nat) (oj : Pattern) (bj : Binding), l[j]? = some oj →
        pmatch oj p = some bj →
        get_wildcard_len res ≤ get_wildcard_len bj) ∧
      (∀ (j : Nat) (oj : Pattern) (bj : Binding), j < i → l[j]? = some oj →
        pmatch oj p = some bj →
        get_wildcard_len res < get_wildcard_len bj)) := by
  induction l with
  | nil =>
      intro b0 h0
      left
      exact ⟨rfl, fun j oj bj hj _ => by simp at hj⟩
  | cons o rest ih =>
      intro b0 h0
      have hne' : ∀ o' ∈ rest, ∀ b, pmatch o' p = some b → b ≠ [] :=
        fun o' h' => hne o' (List.mem_cons_of_mem _ h')
      rw [gwLoop]
      cases hpm : pmatch o p with
      | none =>
          dsimp only
          rcases ih hne' b0 h0 with ⟨hl, hall⟩ | ⟨i, oi, res, h1, h2, h3, h4, h5, h6, h7⟩
          · left
            refine ⟨hl, fun j oj bj hj hpj => ?_⟩
            cases j with
            | zero =>
                rw [List.getElem?_cons_zero] at hj
                injection hj with hj
                rw [← hj, hpm] at hpj; cases hpj
            | succ j' =>
                rw [List.getElem?_cons_succ] at hj
                exact hall j' oj bj hj hpj
          · right
            refine ⟨i + 1, oi, res, by simpa using h1, h2, h3, h4, h5,
              fun j oj bj hj hpj => ?_, fun j oj bj hlt hj hpj => ?_⟩
            · cases j with
              | zero =>
                  rw [List.getElem?_cons_zero] at hj
                  injection hj with hj
                  rw [← hj, hpm] at hpj; cases hpj
              | succ j' =>
                  rw [List.getElem?_cons_succ] at hj
                  exact h6 j' oj bj hj hpj
            · cases j with
              | zero =>
                  rw [List.getElem?_cons_zero] at hj
                  injection hj with hj
                  rw [← hj, hpm] at hpj; cases hpj
              | succ j' =>
                  rw [List.getElem?_cons_succ] at hj
                  exact h7 j' oj bj (Nat.lt_of_succ_lt_succ hlt) hj hpj
      | some b =>
          have hb : b ≠ [] := hne o (List.mem_cons_self _ _) b hpm
          dsimp only
          rw [pyFalsy_of_ne_nil h0, Bool.false_or]
          by_cases hlt : get_wildcard_len b0 > get_wildcard_len b
          · rw [if_pos (by simpa using hlt)]
            rcases ih hne' b hb with ⟨hl, hall⟩ | ⟨i, oi, res, h1, h2, h3, h4, h5, h6, h7⟩
            · right
              refine ⟨0, o, b, List.getElem?_cons_zero, hpm, hl, hb, hlt,
                fun j oj bj hj hpj => ?_, fun j oj bj hj _ _ => absurd hj (Nat.not_lt_zero _)⟩
              cases j with
              | zero =>
                  rw [List.getElem?_cons_zero] at hj
                  injection hj with hj
                  rw [← hj, hpm] at hpj
                  injection hpj with hpj
                  rw [hpj]
              | succ j' =>
                  rw [List.getElem?_cons_succ] at hj
                  exact hall j' oj bj hj hpj
            · right
              refine ⟨i + 1, oi, res, by simpa using h1, h2, h3, h4,
                Nat.lt_trans h5 hlt, fun j oj bj hj hpj => ?_,
                fun j oj bj hjlt hj hpj => ?_⟩
              · cases j with
                | zero =>
                    rw [List.getElem?_cons_zero] at hj
                    injection hj with hj
                    rw [← hj, hpm] at hpj
                    injection hpj with hpj
                    rw [← hpj]
                    exact Nat.le_of_lt h5
                | succ j' =>
                    rw [List.getElem?_cons_succ] at hj
                    exact h6 j' oj bj hj hpj
              · cases j with
                | zero =>
                    rw [List.getElem?_cons_zero] at hj
                    injection hj with hj
                    rw [← hj, hpm] at hpj
                    injection hpj with hpj
                    rw [← hpj]
                    exact h5
                | succ j' =>
                    rw [List.getElem?_cons_succ] at hj
                    exact h7 j' oj bj (Nat.lt_of_succ_lt_succ hjlt) hj hpj
          · rw [if_neg (by simpa using hlt)]
            have hge : get_wildcard_len b0 ≤ get_wildcard_len b :=
              Nat.le_of_not_lt hlt
            rcases ih hne' b0 h0 with ⟨hl, hall⟩ | ⟨i, oi, res, h1, h2, h3, h4, h5, h6, h7⟩
            · left
              refine ⟨hl, fun j oj bj hj hpj => ?_⟩
              cases j with
              | zero =>
                  rw [List.getElem?_cons_zero] at hj
                  injection hj with hj
                  rw [← hj, hpm] at hpj
                  injection hpj with hpj
                  rw [← hpj]
                  exact hge
              | succ j' =>
                  rw [List.getElem?_cons_succ] at hj
                  exact hall j' oj bj hj hpj
            · right
              refine ⟨i + 1, oi, res, by simpa using h1, h2, h3, h4, h5,
                fun j oj bj hj hpj => ?_, fun j oj bj hjlt hj hpj => ?_⟩
              · cases j with
                | zero =>
                    rw [List.getElem?_cons_zero] at hj
                    injection hj with hj
                    rw [← hj, hpm] at hpj
                    injection hpj with hpj
                    rw [← hpj]
                    exact Nat.le_of_lt (Nat.lt_of_lt_of_le h5 hge)
                | succ j' =>
                    rw [List.getElem?_cons_succ] at hj
                    exact h6 j' oj bj hj hpj
              · cases j with
                | zero =>
                    rw [List.getElem?_cons_zero] at hj
                    injection hj with hj
                    rw [← hj, hpm] at hpj
                    injection hpj with hpj
                    rw [← hpj]
                    exact Nat.lt_of_lt_of_le h5 hge
                | succ j' =>
                    rw [List.getElem?_cons_succ] at hj
                    exact h7 j' oj bj (Nat.lt_of_succ_lt_succ hjlt) hj hpj

/-- When every match of the scanned outputs yields the empty binding, the
loop returns the empty binding as soon as any output matches. -/
theorem gwB (p : String) (l : List Pattern)
    (he : ∀ o ∈ l, ∀ b, pmatch o p = some b → b = []) :
    ∀ (bm : Option Binding) (bl : Nat),
      (bm = some [] ∨ (bm = none ∧ ∃ o ∈ l, (pmatch o p).isSome)) →
      gwLoop p bm bl l = some [] := by
  induction l with
  | nil =>
      intro bm bl hbm
      rcases hbm with h | ⟨_, o, ho, _⟩
      · rw [h]; rfl
      · cases ho
  | cons o rest ih =>
      intro bm bl hbm
      have he' : ∀ o' ∈ rest, ∀ b, pmatch o' p = some b → b = [] :=
        fun o' h' => he o' (List.mem_cons_of_mem _ h')
      rw [gwLoop]
      cases hpm : pmatch o p with
      | some b =>
          have hb : b = [] := he o (List.mem_cons_self _ _) b hpm
          dsimp only
          have hfa : pyFalsy bm = true := by
            rcases hbm with h | ⟨h, _⟩
            · rw [h]; rfl
            · rw [h]; rfl
          rw [hfa, Bool.true_or, if_pos rfl]
          subst hb
          exact ih he' (some []) _ (Or.inl rfl)
      | none =>
          rcases hbm with h | ⟨h, o', ho', hpm'⟩
          · exact ih he' bm bl (Or.inl h)
          · refine ih he' bm bl (Or.inr ⟨h, o', ?_, hpm'⟩)
            rcases List.mem_cons.mp ho' with h' | h'
            · rw [h', hpm] at hpm'; cases hpm'
            · exact h'

/-- Splitting a list at the first element whose match succeeds. -/
theorem exists_first_match (p : String) (l : List Pattern)
    (hm : ∃ o ∈ l, (pmatch o p).isSome) :
    ∃ l1 o l2 b, l = l1 ++ o :: l2 ∧ pmatch o p = some b ∧
      ∀ o' ∈ l1, pmatch o' p = none := by
  induction l with
  | nil => rcases hm with ⟨o, ho, _⟩; cases ho
  | cons o rest ih =>
      cases hpm : pmatch o p with
      | some b =>
          exact ⟨[], o, rest, b, rfl, hpm, fun o' h' => by cases h'⟩
      | none =>
          rcases hm with ⟨o', ho', hs'⟩
          have ho'' : o' ∈ rest := by
            rcases List.mem_cons.mp ho' with h' | h'
            · rw [h', hpm] at hs'; cases hs'
            · exact h'
          rcases ih ⟨o', ho'', hs'⟩ with ⟨l1, o1, l2, b, hsplit, hpm1, hnone⟩
          refine ⟨o :: l1, o1, l2, b, by rw [hsplit]; rfl, hpm1,
            fun o'' h'' => ?_⟩
          rcases List.mem_cons.mp h'' with h' | h'
          · rw [h']; exact hpm
          · exact hnone o'' h'

theorem gwLoop_append_none {p : String} (l1 rest : List Pattern)
    (bm : Option Binding) (bl : Nat) (h : ∀ o ∈ l1, pmatch o p = none) :
    gwLoop p bm bl (l1 ++ rest) = gwLoop p bm bl rest := by
  induction l1 with
  | nil => rfl
  | cons o l1' ih =>
      rw [List.cons_append, gwLoop, h o (List.mem_cons_self _ _)]
      exact ih (fun o' h' => h o' (List.mem_cons_of_mem _ h'))

/-- A constructible mixed rule: a wildcard-free output followed by a
wildcarded one (`set_output` accepts it, because an empty wildcard-name
set never locks `self.wildcard_names`; see the C8 counterexample). Its
`wildcard_names` is the value the validation loop leaves behind. -/
def r2x : Rule :=
  { Rule.new "r2x" none none with
    output := [[Seg.lit "a.x"], [Seg.wild "b", Seg.lit ".x"]]
    wildcard_names := ["b"] }

/-- Claim C2, counterexample: on the constructible rule with outputs
`["a.x", "{b}.x"]` and path `"a.x"`, both outputs match — the first with
the empty binding (aggregate length 0, earlier declaration), the second
with `{b: "a"}` (aggregate length 1) — yet `get_wildcards` returns
`{b: "a"}`: the `not bestmatch` guard treats the already-found empty
dict as falsy and lets the later, longer binding overwrite it, so the
returned binding is not the minimal one. -/
theorem claim_C2_counterexample :
    (set_output (Rule.new "r2x" none none)
        [⟨[Seg.lit "a.x"], false, false, false⟩,
         ⟨[Seg.wild "b", Seg.lit ".x"], false, false, false⟩]).isOk = true ∧
    pmatch [Seg.lit "a.x"] "a.x" = some [] ∧
    pmatch [Seg.wild "b", Seg.lit ".x"] "a.x" = some [("b", "a")] ∧
    r2x.output[0]? = some [Seg.lit "a.x"] ∧
    r2x.get_wildcards (some "a.x") = some [("b", "a")] ∧
    get_wildcard_len [("b", "a")] = 1 ∧
    get_wildcard_len ([] : Binding) = 0 := by
  decide

/-- Claim C2 as amended: for a rule whose outputs agree on *having*
wildcards — which holds for every rule whose outputs share one
wildcard-name set, though not for the mixed rules the empty-set loophole
of `set_output` lets through (counterexample theorem) — and a path
matched by some output, `get_wildcards` returns the binding of a
matching output of minimal aggregate captured length, and that output is
no later than any other match of the same length (ties go to the earlier
declaration). -/
theorem claim_C2 (r : Rule) (p : String)
    (hwf : ∀ o1 ∈ r.output, ∀ o2 ∈ r.output, hasWild o1 = hasWild o2)
    (hm : ∃ o ∈ r.output, (pmatch o p).isSome) :
    ∃ (i : Nat) (o : Pattern) (b : Binding), r.output[i]? = some o ∧
      pmatch o p = some b ∧ r.get_wildcards (some p) = some b ∧
      (∀ (j : Nat) (oj : Pattern) (bj : Binding), r.output[j]? = some oj →
        pmatch oj p = some bj →
        get_wildcard_len b ≤ get_wildcard_len bj ∧
        (get_wildcard_len bj = get_wildcard_len b → i ≤ j)) := by
  rcases exists_first_match p r.output hm with ⟨l1, o0, l2, b1, hsplit, hpm0, hnone⟩
  have ho0 : o0 ∈ r.output := by
    rw [hsplit]; exact List.mem_append_right _ (List.mem_cons_self _ _)
  have hl2sub : ∀ o ∈ l2, o ∈ r.output := by
    intro o ho
    rw [hsplit]; exact List.mem_append_right _ (List.mem_cons_of_mem _ ho)
  have hgw : r.get_wildcards (some p) =
      gwLoop p (some b1) (get_wildcard_len b1) l2 := by
    rw [Rule.get_wildcards, hsplit, gwLoop_append_none l1 _ _ _ hnone,
      gwLoop, hpm0]
    dsimp only
    rw [show pyFalsy none = true from rfl, Bool.true_or, if_pos rfl]
  have hidx0 : r.output[l1.length]? = some o0 := by
    rw [hsplit, List.getElem?_append_right (Nat.le_refl _), Nat.sub_self,
      List.getElem?_cons_zero]
  have hjlt : ∀ (j : Nat) (oj : Pattern), j < l1.length →
      r.output[j]? = some oj → pmatch oj p = none := by
    intro j oj hj hjg
    rw [hsplit, List.getElem?_append_left hj] at hjg
    exact hnone oj (List.getElem?_mem hjg)
  have hjgt : ∀ (j : Nat) (oj : Pattern), l1.length < j →
      r.output[j]? = some oj → l2[j - l1.length - 1]? = some oj := by
    intro j oj hj hjg
    rw [hsplit, List.getElem?_append_right (Nat.le_of_lt hj)] at hjg
    rw [show j - l1.length = (j - l1.length - 1) + 1 by omega,
      List.getElem?_cons_succ] at hjg
    exact hjg
  cases hw0 : hasWild o0 with
  | true =>
      have hallw : ∀ o ∈ r.output, hasWild o = true := by
        intro o ho
        rw [hwf o ho o0 ho0, hw0]
      have hne : ∀ o ∈ l2, ∀ b, pmatch o p = some b → b ≠ [] :=
        fun o ho b hb => pmatch_ne_nil (hallw o (hl2sub o ho)) hb
      have hb1 : b1 ≠ [] := pmatch_ne_nil (hallw o0 ho0) hpm0
      rcases gwA p l2 hne b1 hb1 with ⟨hl, hall⟩ |
        ⟨i', oi, res, h1, h2, h3, h4, h5, h6, h7⟩
      · refine ⟨l1.length, o0, b1, hidx0, hpm0, by rw [hgw, hl], ?_⟩
        intro j oj bj hj hpj
        rcases Nat.lt_trichotomy j l1.length with hlt | heq | hgt
        · rw [hjlt j oj hlt hj] at hpj; cases hpj
        · subst heq
          rw [hidx0] at hj
          injection hj with hj
          rw [← hj, hpm0] at hpj
          injection hpj with hpj
          rw [← hpj]
          exact ⟨Nat.le_refl _, fun _ => Nat.le_refl _⟩
        · refine ⟨hall _ oj bj (hjgt j oj hgt hj) hpj, fun _ => Nat.le_of_lt hgt⟩
      · refine ⟨l1.length + 1 + i', oi, res, ?_, h2, by rw [hgw, h3], ?_⟩
        · rw [hsplit, List.getElem?_append_right (by omega),
            show l1.length + 1 + i' - l1.length = i' + 1 by omega,
            List.getElem?_cons_succ]
          exact h1
        · intro j oj bj hj hpj
          rcases Nat.lt_trichotomy j l1.length with hlt | heq | hgt
          · rw [hjlt j oj hlt hj] at hpj; cases hpj
          · subst heq
            rw [hidx0] at hj
            injection hj with hj
            rw [← hj, hpm0] at hpj
            injection hpj with hpj
            rw [← hpj]
            exact ⟨Nat.le_of_lt h5, fun htie => absurd htie (by omega)⟩
          · refine ⟨h6 _ oj bj (hjgt j oj hgt hj) hpj, fun htie => ?_⟩
            by_contra hcon
            have hj' : j - l1.length - 1 < i' := by omega
            have := h7 _ oj bj hj' (hjgt j oj hgt hj) hpj
            omega
  | false =>
      have hall0 : ∀ o ∈ r.output, hasWild o = false := by
        intro o ho
        rw [hwf o ho o0 ho0, hw0]
      have hb1 : b1 = [] := pmatch_nil (hall0 o0 ho0) hpm0
      have hres : r.get_wildcards (some p) = some [] := by
        rw [hgw, hb1]
        exact gwB p l2
          (fun o ho b hb => pmatch_nil (hall0 o (hl2sub o ho)) hb)
          (some []) _ (Or.inl rfl)
      refine ⟨l1.length, o0, b1, hidx0, hpm0, by rw [hres, hb1], ?_⟩
      intro j oj bj hj hpj
      have hbj : bj = [] := pmatch_nil (hall0 oj (List.getElem?_mem hj)) hpj
      rcases Nat.lt_trichotomy j l1.length with hlt | heq | hgt
      · rw [hjlt j oj hlt hj] at hpj; cases hpj
      · subst heq
        rw [hb1, hbj]
        exact ⟨Nat.le_refl _, fun _ => Nat.le_refl _⟩
      · rw [hb1, hbj]
        exact ⟨Nat.le_refl _, fun _ => Nat.le_of_lt hgt⟩

/-- A rule with two wildcard outputs both matching `"ab.txt"`: the first
captures `"ab"` (length 2), the second `"a"` (length 1). -/
def r2w : Rule :=
  { Rule.new "r2w" none none with
    output := [[Seg.wild "x", Seg.lit ".txt"], [Seg.wild "y", Seg.lit "b.txt"]]
    wildcard_names := ["x"] }

/-- Witness for C2: on the concrete rule above and the path `"ab.txt"`,
both hypotheses are discharged by computation; additionally the returned
binding evaluates to the shorter capture `{y: "a"}` of the second
output. -/
theorem claim_C2_witness :
    (∃ (i : Nat) (o : Pattern) (b : Binding), r2w.output[i]? = some o ∧
      pmatch o "ab.txt" = some b ∧
      r2w.get_wildcards (some "ab.txt") = some b ∧
      (∀ (j : Nat) (oj : Pattern) (bj : Binding), r2w.output[j]? = some oj →
        pmatch oj "ab.txt" = some bj →
        get_wildcard_len b ≤ get_wildcard_len bj ∧
        (get_wildcard_len bj = get_wildcard_len b → i ≤ j))) ∧
    r2w.get_wildcards (some "ab.txt") = some [("y", "a")] :=
  ⟨claim_C2 r2w "ab.txt" (by decide) (by decide), by decide⟩
